import Mathlib

/-!
Verification development for the naive de-Bruijn-graph genome assembler
(`chenille-assembler.py`, `djinn.py`).

Python strings are modelled as `List Char`, Python sets of strings as
insertion-ordered duplicate-free lists, and Python dicts as insertion-ordered
association lists.  Because `simplify_debruijn` mutates set objects that are
shared between several dicts (the sieved working graphs alias the sets of
`self._graph` / `self._graph_rev`), the simplification engine is modelled with
an explicit heap of set objects: dict entries hold references into the heap,
exactly mirroring the CPython object semantics.
-/

set_option maxRecDepth 20000

abbrev Str := List Char
abbrev PySet := List Str
abbrev PDict := List (Str × PySet)
abbrev Ref := Nat
abbrev RDict := List (Str × Ref)

/-- Python exceptions / process exits that the modelled code can raise. -/
inductive PyErr where
  | keyError
  | indexError
  | typeError
  | exitOne
deriving DecidableEq, Repr

/-- Result of running an imperative fragment: `div` marks exhaustion of the
fuel bound (would-be divergence), `err` a raised exception, `ok` normal
return. -/
inductive Res (α : Type) where
  | div : Res α
  | err : PyErr → Res α
  | ok : α → Res α
deriving DecidableEq, Repr

/-- Python `set.add`: append if not contained (sets are modelled as
insertion-ordered duplicate-free lists). -/
def sAdd (s : PySet) (x : Str) : PySet :=
  if x ∈ s then s else s ++ [x]

/-- Python `set.remove`: `none` models the `KeyError` raised on a missing
element. -/
def sRemove (s : PySet) (x : Str) : Option PySet :=
  if x ∈ s then some (s.erase x) else none

/-- Python `set(iterable)`. -/
def sOf (l : List Str) : PySet :=
  l.foldl sAdd []

/-- Python `d[k]` lookup returning `none` when the key is absent. -/
def dlookup {α : Type} : List (Str × α) → Str → Option α
  | [], _ => none
  | (k, v) :: rest, x => if x = k then some v else dlookup rest x

/-- Python `d[k] = v`: overwrite in place if present, else append. -/
def dset {α : Type} : List (Str × α) → Str → α → List (Str × α)
  | [], x, v => [(x, v)]
  | (k, w) :: rest, x, v =>
    if x = k then (x, v) :: rest else (k, w) :: dset rest x v

/-- Python `d.pop(k, default)`: remove the entry if present (no error). -/
def dpop {α : Type} : List (Str × α) → Str → List (Str × α)
  | [], _ => []
  | (k, w) :: rest, x => if x = k then rest else (k, w) :: dpop rest x

/-- Python `list(d.keys())` (dicts preserve insertion order). -/
def dkeys {α : Type} (d : List (Str × α)) : List Str :=
  d.map Prod.fst

/-- The heap of Python set objects; a `Ref` is an index into `cells`. -/
structure Heap where
  cells : List PySet
deriving DecidableEq, Repr

def hAlloc (h : Heap) (s : PySet) : Ref × Heap :=
  (h.cells.length, ⟨h.cells ++ [s]⟩)

def hRead (h : Heap) (r : Ref) : PySet :=
  h.cells.getD r []

def hWrite (h : Heap) (r : Ref) (s : PySet) : Heap :=
  ⟨h.cells.set r s⟩

/-! ### difflib.SequenceMatcher.find_longest_match

Modelled from the documented behaviour for junk-free inputs (the strings
involved are far below the autojunk threshold): among all matching blocks
`a[i:i+size] == b[j:j+size]` return the one with maximal `size`, breaking
ties by least `i`, then least `j`; `(0, 0, 0)` when there is no match. -/

/-- Length of the longest common prefix of two strings. -/
def commonLen : Str → Str → Nat
  | c :: cs, d :: ds => if c = d then commonLen cs ds + 1 else 0
  | _, _ => 0

/-- All candidate matches `(i, j, size)` where `size` is the length of the
longest block of `a` starting at `i` matching `b` starting at `j`, listed in
lexicographic order of `(i, j)`. -/
def flmCands (a b : Str) : List (Nat × Nat × Nat) :=
  (List.range (a.length + 1)).flatMap fun i =>
    (List.range (b.length + 1)).map fun j =>
      (i, j, commonLen (a.drop i) (b.drop j))

/-- Keep the first candidate of maximal size (strict improvement only). -/
def flmPick : Nat × Nat × Nat → List (Nat × Nat × Nat) → Nat × Nat × Nat
  | best, [] => best
  | best, c :: rest => flmPick (if c.2.2 > best.2.2 then c else best) rest

/-- `SequenceMatcher(None, a, b).find_longest_match(0, len(a), 0, len(b))`. -/
def find_longest_match (a b : Str) : Nat × Nat × Nat :=
  flmPick (0, 0, 0) (flmCands a b)

/-- The merge computed by `simplify_debruijn` (lines 166-168):
`new_word = word[: beta + overlap_len] + follower[alpha + overlap_len:]`
where `alpha, beta, overlap_len = SequenceMatcher(None, follower,
word).find_longest_match(...)`. -/
def merge_words (word follower : Str) : Str :=
  let m := find_longest_match follower word
  word.take (m.2.1 + m.2.2) ++ follower.drop (m.1 + m.2.2)

/-! ### KmerExtractor: `get_kmers` (chenille-assembler.py lines 61-72,
djinn.py lines 32-43; both bodies are identical). -/

/-- The inner loop of `get_kmers` for one read whose length is at least `k`:
`for i in range(len(read) - k + 1): kmer_set.add(read[i : i + k])`. -/
def addReadKmers (k : Nat) (read : Str) (acc : PySet) : PySet :=
  (List.range (read.length - k + 1)).foldl
    (fun s i => sAdd s ((read.drop i).take k)) acc

/-- The loop of `get_kmers` over the reads; the `k > read_len` check sits
inside the loop and calls `exit(1)`. -/
def get_kmers_go (k : Nat) (readLen : Nat) : List Str → PySet → Except PyErr PySet
  | [], acc => .ok acc
  | read :: rest, acc =>
    if k > readLen then .error .exitOne
    else if k ≤ read.length then get_kmers_go k readLen rest (addReadKmers k read acc)
    else get_kmers_go k readLen rest acc

/-- `get_kmers(self, k, reads, read_len)`. -/
def get_kmers (k : Nat) (reads : List Str) (readLen : Nat) : Except PyErr PySet :=
  get_kmers_go k readLen reads []

/-! ### OverlapGraphBuilder: `find_next_kmers` and `build_debruijn`
(chenille-assembler.py lines 75-104). -/

/-- `find_next_kmers`: all `other` in the k-mer list with
`kmer != other and kmer[1:] == other[:-1]`. -/
def find_next_kmers (kmers : List Str) (kmer : Str) : List Str :=
  kmers.filter fun other => decide (kmer ≠ other ∧ kmer.drop 1 = other.dropLast)

/-- The forward graph built by `build_debruijn`:
`graph[kmer] = set(find_next_kmers(kmer))` for each kmer in order. -/
def build_graph (kmers : List Str) : PDict :=
  kmers.foldl (fun g kmer => dset g kmer (sOf (find_next_kmers kmers kmer))) []

/-- One follower registration in the reverse graph:
`reverse_graph[follower].add(kmer)` or `reverse_graph[follower] = set([kmer])`. -/
def revAddFollower (kmer : Str) (rev : PDict) (f : Str) : PDict :=
  match dlookup rev f with
  | some s => dset rev f (sAdd s kmer)
  | none => dset rev f [kmer]

/-- The reverse graph after the main loop of `build_debruijn` (before the
missing keys are filled in). -/
def build_rev0 (kmers : List Str) : PDict :=
  kmers.foldl
    (fun rev kmer => (find_next_kmers kmers kmer).foldl (revAddFollower kmer) rev) []

/-- The completion loop of `build_debruijn`:
`for key in graph: if key not in reverse_graph: reverse_graph[key] = set()`. -/
def revComplete (g : PDict) (rev : PDict) : PDict :=
  g.foldl (fun rv e => if (dlookup rv e.1).isSome then rv else dset rv e.1 []) rev

/-- The reverse graph built by `build_debruijn`. -/
def build_rev (kmers : List Str) : PDict :=
  revComplete (build_graph kmers) (build_rev0 kmers)

/-- The assembler state: the four graph fields of `ArachneAssembler`. -/
structure Asm where
  graph : PDict
  graph_raw : PDict
  graph_rev : PDict
  graph_rev_raw : PDict
deriving DecidableEq, Repr

/-- `build_debruijn(self)`: sets `self._graph` and `self._graph_rev` from the
stored k-mer list. -/
def build_debruijn (st : Asm) (kmers : List Str) : Asm :=
  { st with graph := build_graph kmers, graph_rev := build_rev kmers }

/-- `ArachneAssembler.__init__` (all graphs empty) followed by
`build_debruijn` on the given k-mer list. -/
def asmOf (kmers : List Str) : Asm :=
  build_debruijn ⟨[], [], [], []⟩ kmers

/-! ### GraphSieve: `sieve_graph` (chenille-assembler.py lines 138-145). -/

/-- The value list union `set.union(*graph.values())` flattened (only
membership in it is ever used). -/
def unionAll (g : RDict) (h : Heap) : List Str :=
  (g.map fun e => hRead h e.2).flatMap id

/-- `set.union(*graph.values())`: raises `TypeError` when the dict has no
values at all (unbound `set.union` needs at least one argument). -/
def unionVals (g : RDict) (h : Heap) : Option (List Str) :=
  match g with
  | [] => none
  | _ :: _ => some (unionAll g h)

/-- The filtering loop of `sieve_graph`; the union expression is evaluated
inside the loop body, so it is only reached when the dict is nonempty. -/
def sieveLoop (gAll : RDict) (h : Heap) : RDict → Except PyErr RDict
  | [] => .ok []
  | (k, r) :: rest =>
    match unionVals gAll h with
    | none => .error .typeError
    | some u =>
      match sieveLoop gAll h rest with
      | .error e => .error e
      | .ok rest2 => .ok (if k ∈ u ∨ hRead h r ≠ [] then (k, r) :: rest2 else rest2)

/-- `sieve_graph(self, graph)`: returns the filtered copy (sharing the same
set objects) together with the original. -/
def sieve_graph (g : RDict) (h : Heap) : Except PyErr (RDict × RDict) :=
  match sieveLoop g h g with
  | .error e => .error e
  | .ok sv => .ok (sv, g)

/-! ### ChainCollapser: `simplify_debruijn` (chenille-assembler.py lines
148-208), with the heap making the set-object sharing explicit. -/

/-- One of the re-pointing loops (lines 181-183 and 186-188):
`for p in snapshot: d[p].remove(removeWord); d[p].add(addWord)` where the
lookup `d[p]` or the `remove` may raise `KeyError`. -/
def updAdj (d : RDict) (removeWord addWord : Str) : Heap → List Str → Except PyErr Heap
  | h, [] => .ok h
  | h, p :: rest =>
    match dlookup d p with
    | none => .error .keyError
    | some rp =>
      match sRemove (hRead h rp) removeWord with
      | none => .error .keyError
      | some s => updAdj d removeWord addWord (hWrite h rp (sAdd s addWord)) rest

/-- The merge body of `simplify_debruijn` (lines 166-198): compute
`new_word`, add it to both dicts sharing the set objects of
`graph[follower]` and `reverse_graph[word]`, re-point the predecessors of `word` and
the successor registrations of `follower`, pop `word` and `follower` from
both dicts, and return the new word with the updated state. -/
def walkMerge (word f : Str) (g rv : RDict) (h : Heap) :
    Except PyErr (Str × RDict × RDict × Heap) :=
  match dlookup g f with
  | none => .error .keyError
  | some rF =>
    match dlookup rv word with
    | none => .error .keyError
    | some rW =>
      match updAdj (dset g (merge_words word f) rF) word (merge_words word f) h
          (hRead h rW) with
      | .error e => .error e
      | .ok h1 =>
        match updAdj (dset rv (merge_words word f) rW) f (merge_words word f) h1
            (hRead h rF) with
        | .error e => .error e
        | .ok h2 =>
          .ok (merge_words word f,
               dpop (dpop (dset g (merge_words word f) rF) word) f,
               dpop (dpop (dset rv (merge_words word f) rW) word) f, h2)

/-- The inner `while word is not None and word in graph` walk of
`simplify_debruijn` for one starting node, with fuel.  A merge executes
lines 163-198; any non-eligible configuration models `word = None`. -/
def walk : Nat → Str → RDict → RDict → Heap → Res (RDict × RDict × Heap)
  | 0, _, _, _, _ => .div
  | fuel + 1, word, g, rv, h =>
    match dlookup g word with
    | none => .ok (g, rv, h)
    | some rw =>
      match hRead h rw with
      | [f] =>
        match dlookup rv f with
        | none => .err .keyError
        | some rf =>
          if (hRead h rf).length = 1 then
            match walkMerge word f g rv h with
            | .error e => .err e
            | .ok (nw, g2, rv2, h2) => walk fuel nw g2 rv2 h2
          else .ok (g, rv, h)
      | _ => .ok (g, rv, h)

/-- One pass of `simplify_debruijn`: `for kmer in kmers:` followed by the
inner walk; the walk fuel is one more than the current node count (a merge
always removes at least one key, see `walk_no_div`). -/
def runPass : List Str → RDict → RDict → Heap → Res (RDict × RDict × Heap)
  | [], g, rv, h => .ok (g, rv, h)
  | kmer :: rest, g, rv, h =>
    match walk (g.length + 1) kmer g rv h with
    | .div => .div
    | .err e => .err e
    | .ok (g1, rv1, h1) => runPass rest g1 rv1 h1

/-- The outer `while change:` loop: run a pass, stop when the node count is
unchanged. -/
def outerLoop : Nat → List Str → RDict → RDict → Heap → Res (RDict × RDict × Heap)
  | 0, _, _, _, _ => .div
  | fuel + 1, kmers, g, rv, h =>
    match runPass kmers g rv h with
    | .div => .div
    | .err e => .err e
    | .ok (g1, rv1, h1) =>
      if g.length = g1.length then .ok (g1, rv1, h1)
      else outerLoop fuel kmers g1 rv1 h1

/-- Load the two stored pure dicts into a fresh heap; the resulting ref
dicts share cells with everything derived from them, exactly as the Python
dicts share their set objects. -/
def simplifyLoad (st : Asm) : RDict × RDict × Heap :=
  let p1 := loadDict st.graph ⟨[]⟩
  let p2 := loadDict st.graph_rev p1.2
  (p1.1, p2.1, p2.2)
where
  loadDict : PDict → Heap → RDict × Heap
    | [], h => ([], h)
    | (k, s) :: rest, h =>
      let p := hAlloc h s
      let q := loadDict rest p.2
      ((k, p.1) :: q.1, q.2)

/-- Read a ref dict back into a pure dict through (a possibly mutated) heap. -/
def readback (d : RDict) (h : Heap) : PDict :=
  d.map fun e => (e.1, hRead h e.2)

/-- The body of `simplify_debruijn` after the two stored dicts have been
loaded into the heap: sieve both graphs, take the key list, read
`len(kmers[0])` (the `IndexError` on an empty sieved graph), run the
fixed-point loop, then store the raw snapshots and the new graphs. -/
def simplify_fixed (gd rvd : RDict) (h0 : Heap) (g rv : RDict) : Res Asm :=
  match dkeys g with
  | [] => .err .indexError
  | _ :: _ =>
    match outerLoop (g.length + 2) (dkeys g) g rv h0 with
    | .div => .div
    | .err e => .err e
    | .ok (g1, rv1, h1) =>
      .ok { graph := readback g1 h1,
            graph_raw := readback gd h1,
            graph_rev := readback rv1 h1,
            graph_rev_raw := readback rvd h1 }

/-- Sieving step of `simplify_debruijn` followed by the fixed-point loop. -/
def simplify_core (gd rvd : RDict) (h0 : Heap) : Res Asm :=
  match sieve_graph gd h0 with
  | .error e => .err e
  | .ok (g, _) =>
    match sieve_graph rvd h0 with
    | .error e => .err e
    | .ok (rv, _) => simplify_fixed gd rvd h0 g rv

/-- `simplify_debruijn(self)`. -/
def simplify_debruijn (st : Asm) : Res Asm :=
  simplify_core (simplifyLoad st).1 (simplifyLoad st).2.1 (simplifyLoad st).2.2

/-! ### Invariants and checkers used by the theorems. -/

/-- `b` is in the successor (resp. predecessor) set that dict `d` stores
for key `a`. -/
def succMem (d : PDict) (a b : Str) : Prop :=
  ∃ s, dlookup d a = some s ∧ b ∈ s

/-- The forward/reverse symmetry invariant of the spec: the two dicts have
equal key sets and `B ∈ graph[A]` iff `A ∈ reverse_graph[B]`. -/
def SymInv (g rv : PDict) : Prop :=
  (∀ x, x ∈ dkeys g ↔ x ∈ dkeys rv) ∧
  (∀ a b, succMem g a b ↔ succMem rv b a)

/-- Boolean edge test: `y ∈ d[x]`. -/
def hasEdge (d : PDict) (x y : Str) : Bool :=
  match dlookup d x with
  | some s => decide (y ∈ s)
  | none => false

/-- Executable check of `SymInv` (complete for duplicate-free key lists,
see `symCheckP_iff`). -/
def symCheckP (g rv : PDict) : Bool :=
  ((dkeys g).all fun x => decide (x ∈ dkeys rv)) &&
  ((dkeys rv).all fun x => decide (x ∈ dkeys g)) &&
  (g.all fun e => e.2.all fun b => hasEdge rv b e.1) &&
  (rv.all fun e => e.2.all fun a => hasEdge g a e.1)

/-- `symCheckP` on the working graphs of a normally returned state; `true`
on errors and divergence. -/
def resSym : Res Asm → Bool
  | .ok st => symCheckP st.graph st.graph_rev
  | _ => true

/-- Proposition form of `resSym`. -/
def ResSymInv (r : Res Asm) : Prop :=
  resSym r = true

/-- The forward and reverse working dicts have equal key sets. -/
def KeysEq (g rv : RDict) : Prop :=
  (∀ x ∈ dkeys g, x ∈ dkeys rv) ∧ (∀ x ∈ dkeys rv, x ∈ dkeys g)

/-- Concrete k-mer sets used as test inputs (all are genuine sorted outputs
of `sorted(get_kmers(...))` for suitable reads). -/
def toL (s : String) : Str := s.toList

def exK : List Str := [toL "AAAA", toL "AAAT", toL "AATC"]

def chainK : List Str := [toL "ATG", toL "GCA", toL "TGC"]

def cycK : List Str := [toL "ATAT", toL "TATA"]

/-! ### Basic lemmas about the set / dict / heap operations. -/

@[simp]
theorem dkeys_nil {α : Type} : dkeys ([] : List (Str × α)) = [] := rfl

@[simp]
theorem dkeys_cons {α : Type} (e : Str × α) (d : List (Str × α)) :
    dkeys (e :: d) = e.1 :: dkeys d := rfl

theorem dlookup_cons_self {α : Type} (k : Str) (w : α) (rest : List (Str × α)) :
    dlookup ((k, w) :: rest) k = some w := by
  simp [dlookup]

theorem dlookup_cons_ne {α : Type} {x k : Str} (hxk : x ≠ k) (w : α)
    (rest : List (Str × α)) : dlookup ((k, w) :: rest) x = dlookup rest x := by
  simp [dlookup, hxk]

theorem dset_cons_self {α : Type} (k : Str) (w v : α) (rest : List (Str × α)) :
    dset ((k, w) :: rest) k v = (k, v) :: rest := by
  simp [dset]

theorem dset_cons_ne {α : Type} {x k : Str} (hxk : x ≠ k) (w v : α)
    (rest : List (Str × α)) : dset ((k, w) :: rest) x v = (k, w) :: dset rest x v := by
  simp [dset, hxk]

theorem dpop_cons_self {α : Type} (k : Str) (w : α) (rest : List (Str × α)) :
    dpop ((k, w) :: rest) k = rest := by
  simp [dpop]

theorem dpop_cons_ne {α : Type} {x k : Str} (hxk : x ≠ k) (w : α)
    (rest : List (Str × α)) : dpop ((k, w) :: rest) x = (k, w) :: dpop rest x := by
  simp [dpop, hxk]

theorem mem_sAdd {s : PySet} {x y : Str} : y ∈ sAdd s x ↔ y ∈ s ∨ y = x := by
  unfold sAdd
  split
  · next hx =>
      constructor
      · exact fun h => Or.inl h
      · rintro (h | rfl) <;> assumption
  · simp [List.mem_append]

theorem mem_sOf_aux {l : List Str} {acc : PySet} {x : Str} :
    x ∈ l.foldl sAdd acc ↔ x ∈ acc ∨ x ∈ l := by
  induction l generalizing acc with
  | nil => simp
  | cons a rest ih =>
    simp only [List.foldl_cons, ih, mem_sAdd, List.mem_cons]
    tauto

theorem mem_sOf {l : List Str} {x : Str} : x ∈ sOf l ↔ x ∈ l := by
  unfold sOf; rw [mem_sOf_aux]; simp

theorem dlookup_dset {α : Type} (d : List (Str × α)) (x y : Str) (v : α) :
    dlookup (dset d x v) y = if y = x then some v else dlookup d y := by
  induction d with
  | nil =>
    by_cases h : y = x <;> simp [dset, dlookup, h]
  | cons e rest ih =>
    obtain ⟨k, w⟩ := e
    by_cases hxk : x = k
    · subst hxk
      rw [dset_cons_self]
      by_cases hyx : y = x
      · subst hyx
        rw [dlookup_cons_self, if_pos rfl]
      · rw [dlookup_cons_ne hyx, dlookup_cons_ne hyx, if_neg hyx]
    · rw [dset_cons_ne hxk]
      by_cases hyk : y = k
      · subst hyk
        have hyx : y ≠ x := fun h => hxk h.symm
        rw [dlookup_cons_self, dlookup_cons_self, if_neg hyx]
      · rw [dlookup_cons_ne hyk, dlookup_cons_ne hyk, ih]

theorem dlookup_none_iff {α : Type} {d : List (Str × α)} {x : Str} :
    dlookup d x = none ↔ x ∉ dkeys d := by
  induction d with
  | nil => simp [dlookup]
  | cons e rest ih =>
    obtain ⟨k, w⟩ := e
    by_cases h : x = k
    · subst h
      simp [dlookup_cons_self]
    · rw [dlookup_cons_ne h, dkeys_cons]
      simp only [List.mem_cons]
      rw [ih]
      constructor
      · intro hx
        rintro (hk | hm)
        · exact h hk
        · exact hx hm
      · intro hx hm
        exact hx (Or.inr hm)

theorem dlookup_isSome_iff {α : Type} {d : List (Str × α)} {x : Str} :
    (dlookup d x).isSome ↔ x ∈ dkeys d := by
  induction d with
  | nil => simp [dlookup]
  | cons e rest ih =>
    obtain ⟨k, w⟩ := e
    by_cases h : x = k
    · subst h
      simp [dlookup_cons_self]
    · rw [dlookup_cons_ne h, dkeys_cons]
      simp only [List.mem_cons, ih]
      constructor
      · exact fun hx => Or.inr hx
      · rintro (hk | hm)
        · exact absurd hk h
        · exact hm

theorem mem_dkeys_of_dlookup {α : Type} {d : List (Str × α)} {x : Str} {v : α}
    (h : dlookup d x = some v) : x ∈ dkeys d := by
  rw [← dlookup_isSome_iff, h]
  rfl

theorem dlookup_mem {α : Type} {d : List (Str × α)} {x : Str} {v : α}
    (h : dlookup d x = some v) : (x, v) ∈ d := by
  induction d with
  | nil => simp [dlookup] at h
  | cons e rest ih =>
    obtain ⟨k, w⟩ := e
    by_cases hk : x = k
    · subst hk
      rw [dlookup_cons_self] at h
      cases h
      exact List.mem_cons_self _ _
    · rw [dlookup_cons_ne hk] at h
      exact List.mem_cons_of_mem _ (ih h)

theorem dlookup_of_mem_nodup {α : Type} {d : List (Str × α)} {x : Str} {v : α}
    (hd : (dkeys d).Nodup) (h : (x, v) ∈ d) : dlookup d x = some v := by
  induction d with
  | nil => simp at h
  | cons e rest ih =>
    obtain ⟨k, w⟩ := e
    simp only [dkeys_cons, List.nodup_cons] at hd
    rcases List.mem_cons.mp h with h1 | h1
    · cases h1
      exact dlookup_cons_self _ _ _
    · have hxk : x ≠ k := by
        rintro rfl
        exact hd.1 (List.mem_map.mpr ⟨(x, v), h1, rfl⟩)
      rw [dlookup_cons_ne hxk]
      exact ih hd.2 h1

theorem mem_dkeys_dset {α : Type} (d : List (Str × α)) (x y : Str) (v : α) :
    y ∈ dkeys (dset d x v) ↔ y ∈ dkeys d ∨ y = x := by
  induction d with
  | nil => simp [dset]
  | cons e rest ih =>
    obtain ⟨k, w⟩ := e
    by_cases hxk : x = k
    · subst hxk
      rw [dset_cons_self, dkeys_cons, dkeys_cons]
      simp only [List.mem_cons]
      tauto
    · rw [dset_cons_ne hxk, dkeys_cons, dkeys_cons]
      simp only [List.mem_cons, ih]
      tauto

theorem dset_length_mem {α : Type} {d : List (Str × α)} {x : Str} (v : α)
    (h : x ∈ dkeys d) : (dset d x v).length = d.length := by
  induction d with
  | nil => simp at h
  | cons e rest ih =>
    obtain ⟨k, w⟩ := e
    by_cases hxk : x = k
    · subst hxk
      rw [dset_cons_self]
      rfl
    · rw [dkeys_cons, List.mem_cons] at h
      rcases h with h | h
      · exact absurd h hxk
      · rw [dset_cons_ne hxk]
        simp [ih h]

theorem dset_length_not_mem {α : Type} {d : List (Str × α)} {x : Str} (v : α)
    (h : x ∉ dkeys d) : (dset d x v).length = d.length + 1 := by
  induction d with
  | nil => simp [dset]
  | cons e rest ih =>
    obtain ⟨k, w⟩ := e
    rw [dkeys_cons, List.mem_cons] at h
    push_neg at h
    rw [dset_cons_ne h.1]
    simp [ih h.2]

theorem dpop_length_mem {α : Type} {d : List (Str × α)} {x : Str}
    (h : x ∈ dkeys d) : (dpop d x).length + 1 = d.length := by
  induction d with
  | nil => simp at h
  | cons e rest ih =>
    obtain ⟨k, w⟩ := e
    by_cases hxk : x = k
    · subst hxk
      rw [dpop_cons_self]
      rfl
    · rw [dkeys_cons, List.mem_cons] at h
      rcases h with h | h
      · exact absurd h hxk
      · rw [dpop_cons_ne hxk]
        simp [← ih h]

theorem dpop_length_le {α : Type} (d : List (Str × α)) (x : Str) :
    (dpop d x).length ≤ d.length := by
  induction d with
  | nil => simp [dpop]
  | cons e rest ih =>
    obtain ⟨k, w⟩ := e
    by_cases hxk : x = k
    · subst hxk
      rw [dpop_cons_self]
      simp
    · rw [dpop_cons_ne hxk]
      simpa using ih

theorem dkeys_dpop_sublist {α : Type} (d : List (Str × α)) (x : Str) :
    (dkeys (dpop d x)).Sublist (dkeys d) := by
  induction d with
  | nil => simp [dpop]
  | cons e rest ih =>
    obtain ⟨k, w⟩ := e
    by_cases hxk : x = k
    · subst hxk
      rw [dpop_cons_self, dkeys_cons]
      exact List.sublist_cons_self _ _
    · rw [dpop_cons_ne hxk, dkeys_cons, dkeys_cons]
      exact List.Sublist.cons₂ _ ih

theorem mem_dkeys_dpop_of_ne {α : Type} {d : List (Str × α)} {x y : Str}
    (hne : y ≠ x) : y ∈ dkeys (dpop d x) ↔ y ∈ dkeys d := by
  induction d with
  | nil => simp [dpop]
  | cons e rest ih =>
    obtain ⟨k, w⟩ := e
    by_cases hxk : x = k
    · subst hxk
      rw [dpop_cons_self, dkeys_cons]
      simp only [List.mem_cons]
      constructor
      · exact fun h => Or.inr h
      · rintro (h | h)
        · exact absurd h hne
        · exact h
    · rw [dpop_cons_ne hxk, dkeys_cons, dkeys_cons]
      simp only [List.mem_cons, ih]

theorem mem_dkeys_dpop {α : Type} {d : List (Str × α)} {x y : Str}
    (hd : (dkeys d).Nodup) : y ∈ dkeys (dpop d x) ↔ y ∈ dkeys d ∧ y ≠ x := by
  induction d with
  | nil => simp [dpop]
  | cons e rest ih =>
    obtain ⟨k, w⟩ := e
    rw [dkeys_cons, List.nodup_cons] at hd
    by_cases hxk : x = k
    · subst hxk
      rw [dpop_cons_self, dkeys_cons]
      simp only [List.mem_cons]
      constructor
      · intro hy
        refine ⟨Or.inr hy, ?_⟩
        rintro rfl
        exact hd.1 hy
      · rintro ⟨hy | hy, hne⟩
        · exact absurd hy hne
        · exact hy
    · rw [dpop_cons_ne hxk, dkeys_cons, dkeys_cons]
      simp only [List.mem_cons, ih hd.2]
      constructor
      · rintro (rfl | ⟨hy, hne⟩)
        · exact ⟨Or.inl rfl, fun hyx => hxk hyx.symm⟩
        · exact ⟨Or.inr hy, hne⟩
      · rintro ⟨hy | hy, hne⟩
        · exact Or.inl hy
        · exact Or.inr ⟨hy, hne⟩

theorem nodup_dkeys_dset {α : Type} {d : List (Str × α)} {x : Str} (v : α)
    (hd : (dkeys d).Nodup) : (dkeys (dset d x v)).Nodup := by
  induction d with
  | nil => simp [dset]
  | cons e rest ih =>
    obtain ⟨k, w⟩ := e
    rw [dkeys_cons, List.nodup_cons] at hd
    by_cases hxk : x = k
    · subst hxk
      rw [dset_cons_self, dkeys_cons, List.nodup_cons]
      exact ⟨hd.1, hd.2⟩
    · rw [dset_cons_ne hxk, dkeys_cons, List.nodup_cons]
      refine ⟨?_, ih hd.2⟩
      intro hmem
      rcases (mem_dkeys_dset rest x k v).mp hmem with h | h
      · exact hd.1 h
      · exact hxk h.symm

theorem nodup_dkeys_dpop {α : Type} {d : List (Str × α)} {x : Str}
    (hd : (dkeys d).Nodup) : (dkeys (dpop d x)).Nodup :=
  (dkeys_dpop_sublist d x).nodup hd

/-! ### Lemmas about `get_kmers`. -/

theorem mem_range_foldl_sAdd (f : Nat → Str) (n : Nat) (acc : PySet) (x : Str) :
    x ∈ (List.range n).foldl (fun s i => sAdd s (f i)) acc ↔
      x ∈ acc ∨ ∃ i, i < n ∧ f i = x := by
  have h : (List.range n).foldl (fun s i => sAdd s (f i)) acc
      = ((List.range n).map f).foldl sAdd acc := by
    rw [List.foldl_map]
  rw [h, mem_sOf_aux]
  simp only [List.mem_map, List.mem_range]

theorem mem_addReadKmers {k : Nat} {read : Str} {acc : PySet} {x : Str}
    (hk : k ≤ read.length) :
    x ∈ addReadKmers k read acc ↔
      x ∈ acc ∨ ∃ i, i + k ≤ read.length ∧ (read.drop i).take k = x := by
  unfold addReadKmers
  rw [mem_range_foldl_sAdd]
  constructor
  · rintro (h | ⟨i, hi, rfl⟩)
    · exact Or.inl h
    · exact Or.inr ⟨i, by omega, rfl⟩
  · rintro (h | ⟨i, hi, rfl⟩)
    · exact Or.inl h
    · exact Or.inr ⟨i, by omega, rfl⟩

theorem get_kmers_go_ok {k readLen : Nat} (hk : k ≤ readLen) (reads : List Str)
    (acc : PySet) :
    ∃ S, get_kmers_go k readLen reads acc = .ok S ∧
      ∀ x, x ∈ S ↔ x ∈ acc ∨
        ∃ r, r ∈ reads ∧ ∃ i, i + k ≤ r.length ∧ (r.drop i).take k = x := by
  induction reads generalizing acc with
  | nil =>
    refine ⟨acc, rfl, fun x => ?_⟩
    simp
  | cons read rest ih =>
    have hgt : ¬ k > readLen := by omega
    by_cases hlen : k ≤ read.length
    · obtain ⟨S, hS, hmem⟩ := ih (addReadKmers k read acc)
      refine ⟨S, ?_, fun x => ?_⟩
      · simp only [get_kmers_go, if_neg hgt, if_pos hlen]
        exact hS
      · rw [hmem x, mem_addReadKmers hlen]
        simp only [List.mem_cons]
        constructor
        · rintro ((h | ⟨i, hi, hx⟩) | ⟨r, hr, hrest⟩)
          · exact Or.inl h
          · exact Or.inr ⟨read, Or.inl rfl, i, hi, hx⟩
          · exact Or.inr ⟨r, Or.inr hr, hrest⟩
        · rintro (h | ⟨r, rfl | hr, hrest⟩)
          · exact Or.inl (Or.inl h)
          · exact Or.inl (Or.inr hrest)
          · exact Or.inr ⟨r, hr, hrest⟩
    · obtain ⟨S, hS, hmem⟩ := ih acc
      refine ⟨S, ?_, fun x => ?_⟩
      · simp only [get_kmers_go, if_neg hgt, if_neg hlen]
        exact hS
      · rw [hmem x]
        simp only [List.mem_cons]
        constructor
        · rintro (h | ⟨r, hr, hrest⟩)
          · exact Or.inl h
          · exact Or.inr ⟨r, Or.inr hr, hrest⟩
        · rintro (h | ⟨r, rfl | hr, hrest⟩)
          · exact Or.inl h
          · obtain ⟨i, hi, -⟩ := hrest
            omega
          · exact Or.inr ⟨r, hr, hrest⟩

/-! ### Lemmas about `sieve_graph`. -/

theorem sieveLoop_ok (gAll : RDict) (h : Heap) (l : RDict) (hne : gAll ≠ []) :
    sieveLoop gAll h l =
      .ok (l.filter fun e => decide (e.1 ∈ unionAll gAll h ∨ hRead h e.2 ≠ [])) := by
  have hu : unionVals gAll h = some (unionAll gAll h) := by
    cases gAll with
    | nil => exact absurd rfl hne
    | cons e rest => rfl
  induction l with
  | nil => rfl
  | cons e rest ih =>
    obtain ⟨kk, r⟩ := e
    simp only [sieveLoop, hu, ih]
    by_cases hc : kk ∈ unionAll gAll h ∨ hRead h r ≠ []
    · simp [List.filter_cons, hc]
    · simp [List.filter_cons, hc]

/-- `sieve_graph` always returns normally: the filtered copy together with
the original (the union-of-values expression is only evaluated when the dict
is nonempty). -/
theorem sieve_graph_ok (g : RDict) (h : Heap) :
    sieve_graph g h =
      .ok (g.filter fun e => decide (e.1 ∈ unionAll g h ∨ hRead h e.2 ≠ []), g) := by
  cases g with
  | nil => rfl
  | cons e rest =>
    unfold sieve_graph
    rw [sieveLoop_ok _ _ _ (by simp)]

/-! ### Claim theorems: C5, C6, C8, C9. -/

/-- C5: the merge step applied to `word = "ATGG"`, `follower = "TGGA"`
splices on the longest overlap "TGG" and yields exactly "ATGGA", with the
overlap appearing once. -/
theorem c5_merge_correct : merge_words (toL "ATGG") (toL "TGGA") = toL "ATGGA" := by
  decide

/-- C6 (amended): `get_kmers` terminates the run with the fatal
configuration error iff `k` exceeds the target read length AND the reads
collection is nonempty; in all other cases (including an empty reads
collection with `k` too large) it returns normally. -/
theorem c6_amended (k : Nat) (reads : List Str) (readLen : Nat) :
    (get_kmers k reads readLen = .error .exitOne ↔ readLen < k ∧ reads ≠ []) ∧
    (¬(readLen < k ∧ reads ≠ []) → ∃ S, get_kmers k reads readLen = .ok S) := by
  constructor
  · cases reads with
    | nil =>
      constructor
      · intro hcontr
        cases hcontr
      · rintro ⟨-, hne⟩
        exact absurd rfl hne
    | cons read rest =>
      by_cases hk : readLen < k
      · constructor
        · exact fun _ => ⟨hk, by simp⟩
        · intro
          show get_kmers_go k readLen (read :: rest) [] = _
          simp [get_kmers_go, hk]
      · constructor
        · intro hrun
          obtain ⟨S, hS, -⟩ := @get_kmers_go_ok k readLen
            (by omega) (read :: rest) []
          rw [show get_kmers k (read :: rest) readLen = get_kmers_go k readLen (read :: rest) [] from rfl, hS] at hrun
          cases hrun
        · rintro ⟨hc, -⟩
          exact absurd hc hk
  · intro hno
    by_cases hk : readLen < k
    · have hreads : reads = [] := by
        by_contra hne
        exact hno ⟨hk, hne⟩
      subst hreads
      exact ⟨[], rfl⟩
    · obtain ⟨S, hS, -⟩ := @get_kmers_go_ok k readLen
        (by omega) reads []
      exact ⟨S, hS⟩

/-- C6 witness: a concrete run in the "all other cases" branch returns
normally. -/
theorem c6_amended_witness :
    ¬((5 : Nat) < 3 ∧ ([toL "ATGGA"] : List Str) ≠ []) ∧
      ∃ S, get_kmers 3 [toL "ATGGA"] 5 = .ok S :=
  ⟨by decide, (c6_amended 3 [toL "ATGGA"] 5).2 (by decide)⟩

/-- C6 counterexample: with an empty reads collection and `k = 5` exceeding
`read_len = 3`, `get_kmers` returns normally (the empty set) instead of
failing as the claim demands. -/
theorem c6_counterexample : get_kmers 5 [] 3 = .ok [] ∧ (3 : Nat) < 5 :=
  ⟨rfl, by omega⟩

/-- C8: `sieve_graph` is total and returns the filtered copy (keys are
exactly those in the union of all successor sets or with a nonempty
successor set, keeping their original set objects) alongside the unchanged
original; in particular the empty graph yields the empty filtered graph. -/
theorem c8_sieve_total (g : RDict) (h : Heap) :
    ∃ sv, sieve_graph g h = .ok (sv, g) ∧
      (∀ kk r, (kk, r) ∈ sv ↔
        ((kk, r) ∈ g ∧ (kk ∈ unionAll g h ∨ hRead h r ≠ []))) ∧
      sieve_graph ([] : RDict) h = .ok ([], []) := by
  refine ⟨_, sieve_graph_ok g h, fun kk r => ?_, rfl⟩
  simp [List.mem_filter]

/-- C9: for `k` at most the target read length, extraction returns normally;
a string is an extracted k-mer iff it is one of the `L - k + 1` length-`k`
substrings of some read of length `L ≥ k` (reads shorter than `k` contribute
nothing), and every extracted k-mer has length exactly `k`. -/
theorem c9_kmer_extraction (k : Nat) (reads : List Str) (readLen : Nat)
    (hk : k ≤ readLen) :
    ∃ S, get_kmers k reads readLen = .ok S ∧
      (∀ x, x ∈ S ↔ ∃ r, r ∈ reads ∧ ∃ i, i + k ≤ r.length ∧ (r.drop i).take k = x) ∧
      (∀ x ∈ S, x.length = k) := by
  obtain ⟨S, hS, hmem⟩ := get_kmers_go_ok hk reads []
  refine ⟨S, hS, fun x => ?_, fun x hx => ?_⟩
  · rw [hmem x]
    simp
  · obtain ⟨r, hr, i, hik, hx⟩ := by
      have := (hmem x).mp hx
      simpa using this
    subst hx
    rw [List.length_take, List.length_drop]
    omega

/-- C9 witness: instantiation at `k = 4`, one long and one short read. -/
theorem c9_kmer_extraction_witness :
    (4 : Nat) ≤ 5 ∧
      ∃ S, get_kmers 4 [toL "ATGGA", toL "AT"] 5 = .ok S ∧
        (∀ x, x ∈ S ↔ ∃ r, r ∈ [toL "ATGGA", toL "AT"] ∧
          ∃ i, i + 4 ≤ r.length ∧ (r.drop i).take 4 = x) ∧
        (∀ x ∈ S, x.length = 4) :=
  ⟨by decide, c9_kmer_extraction 4 [toL "ATGGA", toL "AT"] 5 (by decide)⟩

/-! ### Bridging the executable symmetry checker and the invariant. -/

theorem hasEdge_iff {d : PDict} {x y : Str} :
    hasEdge d x y = true ↔ succMem d x y := by
  unfold hasEdge succMem
  cases hl : dlookup d x with
  | none =>
    simp only [Bool.false_eq_true, false_iff]
    rintro ⟨s, hs, -⟩
    cases hs
  | some s =>
    simp only [decide_eq_true_eq]
    constructor
    · exact fun hy => ⟨s, rfl, hy⟩
    · rintro ⟨s1, hs1, hy⟩
      cases hs1
      exact hy

theorem symCheckP_iff {g rv : PDict} (hg : (dkeys g).Nodup)
    (hrv : (dkeys rv).Nodup) : symCheckP g rv = true ↔ SymInv g rv := by
  unfold symCheckP SymInv
  simp only [Bool.and_eq_true, List.all_eq_true, decide_eq_true_eq]
  constructor
  · rintro ⟨⟨⟨hA, hB⟩, hC⟩, hD⟩
    constructor
    · intro x
      constructor
      · exact fun hx => hA x hx
      · exact fun hx => hB x hx
    · intro a b
      constructor
      · rintro ⟨s, hs, hb⟩
        exact hasEdge_iff.mp (hC (a, s) (dlookup_mem hs) b hb)
      · rintro ⟨s, hs, ha⟩
        exact hasEdge_iff.mp (hD (b, s) (dlookup_mem hs) a ha)
  · rintro ⟨h1, h2⟩
    refine ⟨⟨⟨fun x hx => (h1 x).mp hx, fun x hx => (h1 x).mpr hx⟩, ?_⟩, ?_⟩
    · rintro ⟨a, s⟩ he b hb
      have hs : dlookup g a = some s := dlookup_of_mem_nodup hg he
      exact hasEdge_iff.mpr ((h2 a b).mp ⟨s, hs, hb⟩)
    · rintro ⟨b, s⟩ he a ha
      have hs : dlookup rv b = some s := dlookup_of_mem_nodup hrv he
      exact hasEdge_iff.mpr ((h2 a b).mpr ⟨s, hs, ha⟩)

/-! ### Concrete counterexample / failing-input theorems. -/

/-- C1 counterexample: on the k-mer set {"AAAA", "AAAT", "AATC"} the
symmetry invariant holds immediately after `build_debruijn` but is destroyed
by `simplify_debruijn` (the merge of "AAAA" with "AAAT" produces the name
"AAAT" again, leaving the final reverse graph with the stale predecessor
"AAAT" for "AATC" while "AAAT" is no longer a node), so the invariant is not
preserved by the simplification passes. -/
theorem c1_counterexample :
    SymInv (asmOf exK).graph (asmOf exK).graph_rev ∧
      ∃ st1, simplify_debruijn (asmOf exK) = .ok st1 ∧
        ¬ SymInv st1.graph st1.graph_rev := by
  refine ⟨(symCheckP_iff (by decide) (by decide)).mp (by decide), ?_⟩
  cases hres : simplify_debruijn (asmOf exK) with
  | div =>
    have hok : (match simplify_debruijn (asmOf exK) with
      | .ok _ => true
      | _ => false) = true := by decide
    rw [hres] at hok
    cases hok
  | err e =>
    have hok : (match simplify_debruijn (asmOf exK) with
      | .ok _ => true
      | _ => false) = true := by decide
    rw [hres] at hok
    cases hok
  | ok st1 =>
    refine ⟨st1, rfl, ?_⟩
    have hfacts : (match simplify_debruijn (asmOf exK) with
      | .ok st => decide ((dkeys st.graph).Nodup ∧ (dkeys st.graph_rev).Nodup ∧
          symCheckP st.graph st.graph_rev = false)
      | _ => false) = true := by decide
    rw [hres] at hfacts
    have hf := of_decide_eq_true hfacts
    intro hsym
    have := (symCheckP_iff hf.1 hf.2.1).mpr hsym
    rw [hf.2.2] at this
    cases this

/-- C2 counterexample: on the chain k-mer set {"ATG", "GCA", "TGC"} the
retained raw reverse snapshot after `simplify_debruijn` is NOT the reverse
graph as built (the shared set object for "GCA" was mutated from {"TGC"} to
{"ATGC"} during simplification). -/
theorem c2_counterexample :
    ∃ st1, simplify_debruijn (asmOf chainK) = .ok st1 ∧
      st1.graph_rev_raw ≠ (asmOf chainK).graph_rev := by
  cases hres : simplify_debruijn (asmOf chainK) with
  | div =>
    have hok : (match simplify_debruijn (asmOf chainK) with
      | .ok _ => true
      | _ => false) = true := by decide
    rw [hres] at hok
    cases hok
  | err e =>
    have hok : (match simplify_debruijn (asmOf chainK) with
      | .ok _ => true
      | _ => false) = true := by decide
    rw [hres] at hok
    cases hok
  | ok st1 =>
    refine ⟨st1, rfl, ?_⟩
    have hfacts : (match simplify_debruijn (asmOf chainK) with
      | .ok st => decide (st.graph_rev_raw ≠ (asmOf chainK).graph_rev)
      | _ => false) = true := by decide
    rw [hres] at hfacts
    exact of_decide_eq_true hfacts

/-- C3: the failing input.  Running `simplify_debruijn` on the already fully
simplified graph of the chain {"ATG", "GCA", "TGC"} (which collapsed to the
single isolated contig "ATGCA") raises `IndexError` at `kmers[0]` instead of
returning the graphs unchanged: the sieve drops the isolated contig and the
key list is empty. -/
theorem c3_second_run_fails :
    ∃ st1, simplify_debruijn (asmOf chainK) = .ok st1 ∧
      simplify_debruijn st1 = .err .indexError := by
  cases hres : simplify_debruijn (asmOf chainK) with
  | div =>
    have hok : (match simplify_debruijn (asmOf chainK) with
      | .ok _ => true
      | _ => false) = true := by decide
    rw [hres] at hok
    cases hok
  | err e =>
    have hok : (match simplify_debruijn (asmOf chainK) with
      | .ok _ => true
      | _ => false) = true := by decide
    rw [hres] at hok
    cases hok
  | ok st1 =>
    refine ⟨st1, rfl, ?_⟩
    have hfacts : (match simplify_debruijn (asmOf chainK) with
      | .ok st => decide (simplify_debruijn st = .err .indexError)
      | _ => false) = true := by decide
    rw [hres] at hfacts
    exact of_decide_eq_true hfacts

/-! ### Key preservation through loading and readback. -/

theorem loadDict_keys (d : PDict) (h : Heap) :
    dkeys (simplifyLoad.loadDict d h).1 = dkeys d := by
  induction d generalizing h with
  | nil => rfl
  | cons e rest ih =>
    obtain ⟨k, s⟩ := e
    simp only [simplifyLoad.loadDict, dkeys_cons]
    rw [ih]

theorem readback_keys (d : RDict) (h : Heap) :
    dkeys (readback d h) = dkeys d := by
  unfold readback dkeys
  rw [List.map_map]
  rfl

theorem simplifyLoad_keys (st : Asm) :
    dkeys (simplifyLoad st).1 = dkeys st.graph ∧
      dkeys (simplifyLoad st).2.1 = dkeys st.graph_rev := by
  unfold simplifyLoad
  exact ⟨loadDict_keys _ _, loadDict_keys _ _⟩

/-- C10: whenever the sieved form of the working graph has no nodes (in
particular for the empty graph built from zero reads or zero k-mers),
`simplify_debruijn` does not return empty simplified graphs but fails with
the unhandled `IndexError` from `kmers[0]` on the empty key list. -/
theorem c10_empty_sieve_fails (st : Asm) (sv : RDict × RDict)
    (hs : sieve_graph (simplifyLoad st).1 (simplifyLoad st).2.2 = .ok sv)
    (hempty : sv.1 = []) :
    simplify_debruijn st = .err .indexError := by
  obtain ⟨sv1, sv2⟩ := sv
  simp only at hempty
  subst hempty
  unfold simplify_debruijn simplify_core
  rw [hs, sieve_graph_ok]
  rfl

/-- C10 witness: the empty k-mer set gives the empty graph, whose sieved
form is empty, and simplification indeed raises. -/
theorem c10_empty_sieve_fails_witness :
    simplify_debruijn (asmOf []) = .err .indexError :=
  c10_empty_sieve_fails (asmOf []) ([], []) rfl rfl

theorem simplify_core_eq (gd rvd : RDict) (h0 : Heap) :
    simplify_core gd rvd h0 = simplify_fixed gd rvd h0
      (gd.filter fun e => decide (e.1 ∈ unionAll gd h0 ∨ hRead h0 e.2 ≠ []))
      (rvd.filter fun e => decide (e.1 ∈ unionAll rvd h0 ∨ hRead h0 e.2 ≠ [])) := by
  unfold simplify_core
  rw [sieve_graph_ok, sieve_graph_ok]

theorem simplify_fixed_raw_keys (gd rvd : RDict) (h0 : Heap) (g rv : RDict)
    (st1 : Asm) (hres : simplify_fixed gd rvd h0 g rv = .ok st1) :
    dkeys st1.graph_raw = dkeys gd ∧ dkeys st1.graph_rev_raw = dkeys rvd := by
  unfold simplify_fixed at hres
  cases hg : dkeys g with
  | nil =>
    rw [hg] at hres
    cases hres
  | cons a l =>
    rw [hg] at hres
    cases hout2 : outerLoop (g.length + 2) (a :: l) g rv h0 with
    | div =>
      rw [hout2] at hres
      cases hres
    | err e =>
      rw [hout2] at hres
      cases hres
    | ok trip =>
      obtain ⟨g1, rv1, h1⟩ := trip
      rw [hout2] at hres
      injection hres with h
      subst h
      exact ⟨readback_keys _ _, readback_keys _ _⟩

/-- C2 (amended): after `simplify_debruijn` returns, the retained raw
snapshots hold exactly the keys the graphs had immediately after
construction (the dict objects are never re-keyed), but their
successor/predecessor sets are shared with the working graphs and may have
been mutated by the merges, so the snapshot does not in general equal the
post-construction graphs (see the counterexample). -/
theorem c2_amended (st : Asm) :
    match simplify_debruijn st with
    | .ok st1 => dkeys st1.graph_raw = dkeys st.graph ∧
        dkeys st1.graph_rev_raw = dkeys st.graph_rev
    | _ => True := by
  cases hres : simplify_debruijn st with
  | div => trivial
  | err e => trivial
  | ok st1 =>
    have heq : simplify_debruijn st = simplify_fixed (simplifyLoad st).1
        (simplifyLoad st).2.1 (simplifyLoad st).2.2
        ((simplifyLoad st).1.filter fun e =>
          decide (e.1 ∈ unionAll (simplifyLoad st).1 (simplifyLoad st).2.2 ∨
            hRead (simplifyLoad st).2.2 e.2 ≠ []))
        ((simplifyLoad st).2.1.filter fun e =>
          decide (e.1 ∈ unionAll (simplifyLoad st).2.1 (simplifyLoad st).2.2 ∨
            hRead (simplifyLoad st).2.2 e.2 ≠ [])) :=
      simplify_core_eq _ _ _
    rw [heq] at hres
    obtain ⟨h1, h2⟩ := simplify_fixed_raw_keys _ _ _ _ _ _ hres
    exact ⟨h1.trans (simplifyLoad_keys st).1, h2.trans (simplifyLoad_keys st).2⟩

/-! ### Termination of `simplify_debruijn` (claim C4): every completed merge
strictly decreases the number of graph keys, so the fuel bounds suffice. -/

theorem commonLen_le_left (a : Str) : ∀ b : Str, commonLen a b ≤ a.length := by
  induction a with
  | nil => intro b; cases b <;> simp [commonLen]
  | cons c cs ih =>
    intro b
    cases b with
    | nil => simp [commonLen]
    | cons d ds =>
      by_cases h : c = d
      · simp only [commonLen, if_pos h, List.length_cons]
        have := ih ds
        omega
      · simp [commonLen, h]

theorem commonLen_self (s : Str) : commonLen s s = s.length := by
  induction s with
  | nil => rfl
  | cons c cs ih => simp [commonLen, ih]

theorem flmCands_size_le (a b : Str) : ∀ c ∈ flmCands a b, c.2.2 ≤ a.length := by
  intro c hc
  unfold flmCands at hc
  simp only [List.mem_flatMap, List.mem_map, List.mem_range] at hc
  obtain ⟨i, hi, j, hj, rfl⟩ := hc
  have h1 := commonLen_le_left (a.drop i) (b.drop j)
  have h2 : (a.drop i).length = a.length - i := List.length_drop i a
  show commonLen (a.drop i) (b.drop j) ≤ a.length
  omega

theorem flmPick_of_max {best : Nat × Nat × Nat} {l : List (Nat × Nat × Nat)}
    (hb : ∀ c ∈ l, c.2.2 ≤ best.2.2) : flmPick best l = best := by
  induction l with
  | nil => rfl
  | cons c rest ih =>
    have hc := hb c (List.mem_cons_self _ _)
    unfold flmPick
    rw [if_neg (by omega)]
    exact ih fun d hd => hb d (List.mem_cons_of_mem _ hd)

theorem flmCands_head (a b : Str) :
    ∃ rest, flmCands a b = (0, 0, commonLen a b) :: rest ∧
      ∀ c ∈ rest, c.2.2 ≤ a.length := by
  have hex : ∃ rest, flmCands a b = (0, 0, commonLen a b) :: rest := by
    unfold flmCands
    rw [List.range_succ_eq_map, List.flatMap_cons, List.range_succ_eq_map,
      List.map_cons, List.cons_append, List.drop_zero, List.drop_zero]
    exact ⟨_, rfl⟩
  obtain ⟨rest, hrest⟩ := hex
  refine ⟨rest, hrest, fun c hc => flmCands_size_le a b c ?_⟩
  rw [hrest]
  exact List.mem_cons_of_mem _ hc

theorem find_longest_match_self (s : Str) :
    find_longest_match s s = (0, 0, s.length) := by
  obtain ⟨rest, hr, hb⟩ := flmCands_head s s
  unfold find_longest_match
  rw [hr, commonLen_self]
  have step : flmPick (0, 0, 0) ((0, 0, s.length) :: rest) =
      flmPick (if s.length > 0 then (0, 0, s.length) else (0, 0, 0)) rest := rfl
  rw [step]
  by_cases hlen : s.length > 0
  · rw [if_pos hlen]
    exact flmPick_of_max hb
  · rw [if_neg hlen]
    have hz : s.length = 0 := by omega
    rw [hz]
    exact flmPick_of_max fun c hc => by
      have := hb c hc
      omega

theorem merge_words_self (s : Str) : merge_words s s = s := by
  unfold merge_words
  rw [find_longest_match_self]
  simp

/-- A completed merge strictly shrinks the forward dict. -/
theorem merge_dec {g : RDict} {word f nw : Str} {rw rF : Ref}
    (hw : dlookup g word = some rw) (hf : dlookup g f = some rF)
    (hnw : f = word → nw = word) :
    (dpop (dpop (dset g nw rF) word) f).length < g.length := by
  have hwmem : word ∈ dkeys g := mem_dkeys_of_dlookup hw
  have hfmem : f ∈ dkeys g := mem_dkeys_of_dlookup hf
  by_cases hfw : f = word
  · have hnww : nw = word := hnw hfw
    rw [hnww, hfw]
    have h1 : (dset g word rF).length = g.length := dset_length_mem _ hwmem
    have h2 : word ∈ dkeys (dset g word rF) :=
      (mem_dkeys_dset _ _ _ _).mpr (Or.inr rfl)
    have h3 := dpop_length_mem h2
    have h4 := dpop_length_le (dpop (dset g word rF) word) word
    omega
  · by_cases hnmem : nw ∈ dkeys g
    · have h1 : (dset g nw rF).length = g.length := dset_length_mem _ hnmem
      have h2 : word ∈ dkeys (dset g nw rF) :=
        (mem_dkeys_dset _ _ _ _).mpr (Or.inl hwmem)
      have h3 := dpop_length_mem h2
      have h4 := dpop_length_le (dpop (dset g nw rF) word) f
      omega
    · have h1 : (dset g nw rF).length = g.length + 1 := dset_length_not_mem _ hnmem
      have h2 : word ∈ dkeys (dset g nw rF) :=
        (mem_dkeys_dset _ _ _ _).mpr (Or.inl hwmem)
      have h3 := dpop_length_mem h2
      have h5 : f ∈ dkeys (dpop (dset g nw rF) word) :=
        (mem_dkeys_dpop_of_ne hfw).mpr ((mem_dkeys_dset _ _ _ _).mpr (Or.inl hfmem))
      have h6 := dpop_length_mem h5
      omega

/-- Shape of a normally-returning `walkMerge`: the merged word, the two
popped dicts, and the successful lookups it performed. -/
theorem walkMerge_ok_shape {word f : Str} {g rv : RDict} {h : Heap}
    {nw : Str} {g2 rv2 : RDict} {h2 : Heap}
    (hm : walkMerge word f g rv h = .ok (nw, g2, rv2, h2)) :
    nw = merge_words word f ∧
      ∃ rF rW, dlookup g f = some rF ∧ dlookup rv word = some rW ∧
        g2 = dpop (dpop (dset g (merge_words word f) rF) word) f ∧
        rv2 = dpop (dpop (dset rv (merge_words word f) rW) word) f := by
  unfold walkMerge at hm
  split at hm
  · cases hm
  · next rF hf =>
      split at hm
      · cases hm
      · next rW hrw =>
          split at hm
          · cases hm
          · next h1 hupd1 =>
              split at hm
              · cases hm
              · next hh2 hupd2 =>
                  injection hm with hm1
                  injection hm1 with hnw1 hm2
                  injection hm2 with hg2 hm3
                  injection hm3 with hrv2 hh
                  exact ⟨hnw1.symm, rF, rW, hf, hrw, hg2.symm, hrv2.symm⟩

/-- A normally-returning `walkMerge` strictly shrinks the forward dict. -/
theorem walkMerge_dec {word f nw : Str} {g rv g2 rv2 : RDict} {h h2 : Heap}
    {rw : Ref} (hw : dlookup g word = some rw)
    (hm : walkMerge word f g rv h = .ok (nw, g2, rv2, h2)) :
    g2.length < g.length := by
  obtain ⟨-, rF, rW, hf, -, hg2, -⟩ := walkMerge_ok_shape hm
  subst hg2
  exact merge_dec hw hf fun hfw => by
    rw [hfw]
    exact merge_words_self word

theorem walk_no_div : ∀ (fuel : Nat) (word : Str) (g rv : RDict) (h : Heap),
    g.length < fuel → walk fuel word g rv h ≠ .div := by
  intro fuel
  induction fuel with
  | zero =>
    intro word g rv h hlt
    omega
  | succ fuel ih =>
    intro word g rv h hlt hdiv
    unfold walk at hdiv
    split at hdiv
    · cases hdiv
    · next rw hw =>
        split at hdiv
        · next f =>
            split at hdiv
            · cases hdiv
            · next rf hrf =>
                split at hdiv
                · split at hdiv
                  · cases hdiv
                  · next nw g2 rv2 h2 hm =>
                      have hdec := walkMerge_dec hw hm
                      exact ih nw g2 rv2 h2 (by omega) hdiv
                · cases hdiv
        · cases hdiv

theorem walk_len_le : ∀ (fuel : Nat) (word : Str) (g rv : RDict) (h : Heap)
    (g1 rv1 : RDict) (h1 : Heap),
    walk fuel word g rv h = .ok (g1, rv1, h1) → g1.length ≤ g.length := by
  intro fuel
  induction fuel with
  | zero =>
    intro word g rv h g1 rv1 h1 hok
    cases hok
  | succ fuel ih =>
    intro word g rv h g1 rv1 h1 hok
    unfold walk at hok
    split at hok
    · injection hok with h3
      injection h3 with hg h4
      rw [← hg]
    · next rw hw =>
        split at hok
        · next f =>
            split at hok
            · cases hok
            · next rf hrf =>
                split at hok
                · split at hok
                  · cases hok
                  · next nw g2 rv2 h2 hm =>
                      have h5 := ih nw g2 rv2 h2 g1 rv1 h1 hok
                      have hdec := walkMerge_dec hw hm
                      omega
                · injection hok with h3
                  injection h3 with hg h4
                  rw [← hg]
        · injection hok with h3
          injection h3 with hg h4
          rw [← hg]

theorem runPass_no_div : ∀ (kmers : List Str) (g rv : RDict) (h : Heap),
    runPass kmers g rv h ≠ .div := by
  intro kmers
  induction kmers with
  | nil =>
    intro g rv h hdiv
    cases hdiv
  | cons kmer rest ih =>
    intro g rv h hdiv
    unfold runPass at hdiv
    split at hdiv
    · next hw => exact walk_no_div (g.length + 1) kmer g rv h (by omega) hw
    · cases hdiv
    · next g1 rv1 h1 hwok => exact ih g1 rv1 h1 hdiv

theorem runPass_len_le : ∀ (kmers : List Str) (g rv : RDict) (h : Heap)
    (g1 rv1 : RDict) (h1 : Heap),
    runPass kmers g rv h = .ok (g1, rv1, h1) → g1.length ≤ g.length := by
  intro kmers
  induction kmers with
  | nil =>
    intro g rv h g1 rv1 h1 hok
    injection hok with h3
    injection h3 with hg h4
    rw [← hg]
  | cons kmer rest ih =>
    intro g rv h g1 rv1 h1 hok
    unfold runPass at hok
    split at hok
    · cases hok
    · cases hok
    · next ga rva ha hwok =>
        have h5 := ih ga rva ha g1 rv1 h1 hok
        have h6 := walk_len_le (g.length + 1) kmer g rv h ga rva ha hwok
        omega

theorem outerLoop_no_div : ∀ (fuel : Nat) (kmers : List Str) (g rv : RDict)
    (h : Heap), g.length < fuel → outerLoop fuel kmers g rv h ≠ .div := by
  intro fuel
  induction fuel with
  | zero =>
    intro kmers g rv h hlt
    omega
  | succ fuel ih =>
    intro kmers g rv h hlt hdiv
    unfold outerLoop at hdiv
    split at hdiv
    · next hp => exact runPass_no_div kmers g rv h hp
    · cases hdiv
    · next g1 rv1 h1 hp =>
        split at hdiv
        · cases hdiv
        · next hne =>
            have hle := runPass_len_le kmers g rv h g1 rv1 h1 hp
            exact ih kmers g1 rv1 h1 (by omega) hdiv

/-- Restatement of `simplify_debruijn` through the sieved dicts. -/
theorem simplify_debruijn_eq (st : Asm) :
    simplify_debruijn st = simplify_fixed (simplifyLoad st).1
      (simplifyLoad st).2.1 (simplifyLoad st).2.2
      ((simplifyLoad st).1.filter fun e =>
        decide (e.1 ∈ unionAll (simplifyLoad st).1 (simplifyLoad st).2.2 ∨
          hRead (simplifyLoad st).2.2 e.2 ≠ []))
      ((simplifyLoad st).2.1.filter fun e =>
        decide (e.1 ∈ unionAll (simplifyLoad st).2.1 (simplifyLoad st).2.2 ∨
          hRead (simplifyLoad st).2.2 e.2 ≠ [])) :=
  simplify_core_eq _ _ _

theorem simplify_fixed_no_div (gd rvd : RDict) (h0 : Heap) (g rv : RDict) :
    simplify_fixed gd rvd h0 g rv ≠ .div := by
  intro hdiv
  unfold simplify_fixed at hdiv
  cases hg : dkeys g with
  | nil =>
    rw [hg] at hdiv
    cases hdiv
  | cons a l =>
    rw [hg] at hdiv
    cases hout : outerLoop (g.length + 2) (a :: l) g rv h0 with
    | div => exact outerLoop_no_div (g.length + 2) (a :: l) g rv h0 (by omega) hout
    | err e =>
      rw [hout] at hdiv
      cases hdiv
    | ok trip =>
      obtain ⟨g1, rv1, h1⟩ := trip
      rw [hout] at hdiv
      cases hdiv

/-- C4: `simplify_debruijn` terminates on every input state, including
graphs containing cycles of unambiguous single-successor /
single-predecessor edges: the chain walk only continues from a node that is
still present in the graph, every merge removes the consumed nodes, and the
walk stops when it reaches an already-consumed (popped) node, so the fuel
bounds derived from the node count are never exhausted. -/
theorem c4_termination (st : Asm) : simplify_debruijn st ≠ Res.div := by
  intro hdiv
  rw [simplify_debruijn_eq st] at hdiv
  exact simplify_fixed_no_div _ _ _ _ _ hdiv

/-! ### Characterization of the graphs built by `build_debruijn` (claims C1, C7). -/

theorem foldl_dset_lookup (v : Str → PySet) (l : List Str) (acc : PDict) (a : Str) :
    dlookup (l.foldl (fun g k => dset g k (v k)) acc) a =
      if a ∈ l then some (v a) else dlookup acc a := by
  induction l generalizing acc with
  | nil => simp
  | cons k rest ih =>
    simp only [List.foldl_cons]
    rw [ih]
    by_cases hal : a ∈ rest
    · simp [hal]
    · rw [dlookup_dset]
      by_cases hak : a = k
      · subst hak
        simp [hal]
      · simp [hal, hak]

theorem build_graph_lookup (kmers : List Str) (a : Str) :
    dlookup (build_graph kmers) a =
      if a ∈ kmers then some (sOf (find_next_kmers kmers a)) else none := by
  unfold build_graph
  rw [foldl_dset_lookup]
  simp [dlookup]

theorem mem_find_next_kmers {kmers : List Str} {a b : Str} :
    b ∈ find_next_kmers kmers a ↔ b ∈ kmers ∧ a ≠ b ∧ a.drop 1 = b.dropLast := by
  unfold find_next_kmers
  rw [List.mem_filter]
  simp

theorem mem_dkeys_build_graph (kmers : List Str) (x : Str) :
    x ∈ dkeys (build_graph kmers) ↔ x ∈ kmers := by
  constructor
  · intro hx
    by_contra hxk
    have h1 := build_graph_lookup kmers x
    rw [if_neg hxk] at h1
    exact (dlookup_none_iff.mp h1) hx
  · intro hxk
    have h1 := build_graph_lookup kmers x
    rw [if_pos hxk] at h1
    exact mem_dkeys_of_dlookup h1

theorem succMem_build_graph (kmers : List Str) (a b : Str) :
    succMem (build_graph kmers) a b ↔
      a ∈ kmers ∧ b ∈ find_next_kmers kmers a := by
  unfold succMem
  by_cases ha : a ∈ kmers
  · rw [build_graph_lookup, if_pos ha]
    constructor
    · rintro ⟨s, hs, hb⟩
      cases hs
      exact ⟨ha, mem_sOf.mp hb⟩
    · rintro ⟨-, hb⟩
      exact ⟨_, rfl, mem_sOf.mpr hb⟩
  · rw [build_graph_lookup, if_neg ha]
    constructor
    · rintro ⟨s, hs, -⟩
      cases hs
    · rintro ⟨ha1, -⟩
      exact absurd ha1 ha

theorem succMem_revAddFollower (a0 : Str) (rev : PDict) (f b a : Str) :
    succMem (revAddFollower a0 rev f) b a ↔
      succMem rev b a ∨ (a = a0 ∧ b = f) := by
  unfold revAddFollower
  cases hl : dlookup rev f with
  | some s =>
    unfold succMem
    rw [dlookup_dset]
    by_cases hbf : b = f
    · rw [if_pos hbf]
      subst hbf
      rw [hl]
      constructor
      · rintro ⟨s1, hs1, ha1⟩
        cases hs1
        rcases mem_sAdd.mp ha1 with h | h
        · exact Or.inl ⟨s, rfl, h⟩
        · exact Or.inr ⟨h, rfl⟩
      · rintro (⟨s1, hs1, ha1⟩ | ⟨rfl, -⟩)
        · cases hs1
          exact ⟨_, rfl, mem_sAdd.mpr (Or.inl ha1)⟩
        · exact ⟨_, rfl, mem_sAdd.mpr (Or.inr rfl)⟩
    · rw [if_neg hbf]
      constructor
      · rintro ⟨s1, hs1, ha1⟩
        exact Or.inl ⟨s1, hs1, ha1⟩
      · rintro (⟨s1, hs1, ha1⟩ | ⟨-, hbf1⟩)
        · exact ⟨s1, hs1, ha1⟩
        · exact absurd hbf1 hbf
  | none =>
    unfold succMem
    rw [dlookup_dset]
    by_cases hbf : b = f
    · rw [if_pos hbf]
      subst hbf
      rw [hl]
      constructor
      · rintro ⟨s1, hs1, ha1⟩
        cases hs1
        exact Or.inr ⟨List.mem_singleton.mp ha1, rfl⟩
      · rintro (⟨s1, hs1, -⟩ | ⟨rfl, -⟩)
        · cases hs1
        · exact ⟨_, rfl, List.mem_singleton.mpr rfl⟩
    · rw [if_neg hbf]
      constructor
      · rintro ⟨s1, hs1, ha1⟩
        exact Or.inl ⟨s1, hs1, ha1⟩
      · rintro (⟨s1, hs1, ha1⟩ | ⟨-, hbf1⟩)
        · exact ⟨s1, hs1, ha1⟩
        · exact absurd hbf1 hbf

theorem succMem_inner_fold (a0 : Str) (fl : List Str) (rev : PDict) (b a : Str) :
    succMem (fl.foldl (revAddFollower a0) rev) b a ↔
      succMem rev b a ∨ (a = a0 ∧ b ∈ fl) := by
  induction fl generalizing rev with
  | nil => simp
  | cons f rest ih =>
    simp only [List.foldl_cons]
    rw [ih, succMem_revAddFollower]
    simp only [List.mem_cons]
    constructor
    · rintro ((h | ⟨ha, hb⟩) | ⟨ha, hb⟩)
      · exact Or.inl h
      · exact Or.inr ⟨ha, Or.inl hb⟩
      · exact Or.inr ⟨ha, Or.inr hb⟩
    · rintro (h | ⟨ha, hb | hb⟩)
      · exact Or.inl (Or.inl h)
      · exact Or.inl (Or.inr ⟨ha, hb⟩)
      · exact Or.inr ⟨ha, hb⟩

theorem succMem_rev0_fold (kmersAll : List Str) (l : List Str) (acc : PDict)
    (b a : Str) :
    succMem (l.foldl (fun rev kmer =>
        (find_next_kmers kmersAll kmer).foldl (revAddFollower kmer) rev) acc) b a ↔
      succMem acc b a ∨ (a ∈ l ∧ b ∈ find_next_kmers kmersAll a) := by
  induction l generalizing acc with
  | nil => simp
  | cons a0 rest ih =>
    simp only [List.foldl_cons]
    rw [ih, succMem_inner_fold]
    simp only [List.mem_cons]
    constructor
    · rintro ((h | ⟨rfl, hb⟩) | ⟨ha, hb⟩)
      · exact Or.inl h
      · exact Or.inr ⟨Or.inl rfl, hb⟩
      · exact Or.inr ⟨Or.inr ha, hb⟩
    · rintro (h | ⟨rfl | ha, hb⟩)
      · exact Or.inl (Or.inl h)
      · exact Or.inl (Or.inr ⟨rfl, hb⟩)
      · exact Or.inr ⟨ha, hb⟩

theorem succMem_build_rev0 (kmers : List Str) (b a : Str) :
    succMem (build_rev0 kmers) b a ↔
      a ∈ kmers ∧ b ∈ find_next_kmers kmers a := by
  unfold build_rev0
  rw [succMem_rev0_fold]
  simp [succMem, dlookup]

theorem succMem_revComplete (g rev : PDict) (b a : Str) :
    succMem (revComplete g rev) b a ↔ succMem rev b a := by
  unfold revComplete
  induction g generalizing rev with
  | nil => simp
  | cons e rest ih =>
    simp only [List.foldl_cons]
    rw [ih]
    by_cases hsome : (dlookup rev e.1).isSome
    · rw [if_pos hsome]
    · rw [if_neg hsome]
      unfold succMem
      rw [dlookup_dset]
      by_cases hbe : b = e.1
      · rw [if_pos hbe]
        subst hbe
        constructor
        · rintro ⟨s1, hs1, ha1⟩
          cases hs1
          cases ha1
        · rintro ⟨s1, hs1, -⟩
          rw [hs1] at hsome
          exact absurd rfl hsome
      · rw [if_neg hbe]

theorem mem_dkeys_inner_fold (a0 : Str) (fl : List Str) (rev : PDict) (b : Str) :
    b ∈ dkeys (fl.foldl (revAddFollower a0) rev) ↔ b ∈ dkeys rev ∨ b ∈ fl := by
  induction fl generalizing rev with
  | nil => simp
  | cons f rest ih =>
    simp only [List.foldl_cons]
    rw [ih]
    have hstep : b ∈ dkeys (revAddFollower a0 rev f) ↔ b ∈ dkeys rev ∨ b = f := by
      unfold revAddFollower
      cases dlookup rev f with
      | some s => exact mem_dkeys_dset rev f b (sAdd s a0)
      | none => exact mem_dkeys_dset rev f b [a0]
    rw [hstep]
    simp only [List.mem_cons]
    tauto

theorem mem_dkeys_rev0_fold (kmersAll : List Str) (l : List Str) (acc : PDict)
    (b : Str) :
    b ∈ dkeys (l.foldl (fun rev kmer =>
        (find_next_kmers kmersAll kmer).foldl (revAddFollower kmer) rev) acc) ↔
      b ∈ dkeys acc ∨ ∃ a ∈ l, b ∈ find_next_kmers kmersAll a := by
  induction l generalizing acc with
  | nil => simp
  | cons a0 rest ih =>
    simp only [List.foldl_cons]
    rw [ih, mem_dkeys_inner_fold]
    simp only [List.mem_cons]
    constructor
    · rintro ((h | h) | ⟨a, ha, hb⟩)
      · exact Or.inl h
      · exact Or.inr ⟨a0, Or.inl rfl, h⟩
      · exact Or.inr ⟨a, Or.inr ha, hb⟩
    · rintro (h | ⟨a, rfl | ha, hb⟩)
      · exact Or.inl (Or.inl h)
      · exact Or.inl (Or.inr hb)
      · exact Or.inr ⟨a, ha, hb⟩

theorem mem_dkeys_revComplete (g rev : PDict) (b : Str) :
    b ∈ dkeys (revComplete g rev) ↔ b ∈ dkeys rev ∨ b ∈ dkeys g := by
  unfold revComplete
  induction g generalizing rev with
  | nil => simp
  | cons e rest ih =>
    simp only [List.foldl_cons, dkeys_cons, List.mem_cons]
    rw [ih]
    by_cases hsome : (dlookup rev e.1).isSome
    · rw [if_pos hsome]
      have he : e.1 ∈ dkeys rev := dlookup_isSome_iff.mp hsome
      constructor
      · rintro (h | h)
        · exact Or.inl h
        · exact Or.inr (Or.inr h)
      · rintro (h | h | h)
        · exact Or.inl h
        · exact Or.inl (h ▸ he)
        · exact Or.inr h
    · rw [if_neg hsome]
      rw [mem_dkeys_dset]
      tauto

theorem mem_dkeys_build_rev (kmers : List Str) (x : Str) :
    x ∈ dkeys (build_rev kmers) ↔ x ∈ kmers := by
  unfold build_rev
  rw [mem_dkeys_revComplete, mem_dkeys_build_graph]
  unfold build_rev0
  rw [mem_dkeys_rev0_fold]
  constructor
  · rintro ((h | ⟨a, ha, hx⟩) | h)
    · cases h
    · exact (mem_find_next_kmers.mp hx).1
    · exact h
  · intro h
    exact Or.inr h

theorem succMem_build_rev (kmers : List Str) (b a : Str) :
    succMem (build_rev kmers) b a ↔
      a ∈ kmers ∧ b ∈ find_next_kmers kmers a := by
  unfold build_rev
  rw [succMem_revComplete, succMem_build_rev0]

/-- The symmetry invariant holds immediately after `build_debruijn`, for any
k-mer list. -/
theorem build_SymInv (kmers : List Str) :
    SymInv (build_graph kmers) (build_rev kmers) := by
  constructor
  · intro x
    rw [mem_dkeys_build_graph, mem_dkeys_build_rev]
  · intro a b
    rw [succMem_build_graph, succMem_build_rev]

/-- C7: for every k-mer list of fixed length `k`, the built forward graph
maps each k-mer `a` to exactly the set of other k-mers `b` whose first `k-1`
characters equal the last `k-1` characters of `a`, and a node is never its own
successor even when its suffix equals its own prefix. -/
theorem c7_successor_contract (kmers : List Str) (k : Nat)
    (hlen : ∀ x ∈ kmers, x.length = k) (a : Str) (ha : a ∈ kmers) :
    ∃ s, dlookup (build_graph kmers) a = some s ∧
      (∀ b, b ∈ s ↔ b ∈ kmers ∧ b ≠ a ∧
        a.drop (a.length - (k - 1)) = b.take (k - 1)) ∧
      a ∉ s := by
  have hl := build_graph_lookup kmers a
  rw [if_pos ha] at hl
  have hak : a.length = k := hlen a ha
  refine ⟨_, hl, fun b => ?_, ?_⟩
  · rw [mem_sOf, mem_find_next_kmers]
    constructor
    · rintro ⟨hb, hne, he⟩
      have hbk : b.length = k := hlen b hb
      refine ⟨hb, fun h => hne h.symm, ?_⟩
      rw [hak]
      cases k with
      | zero =>
        have ha0 : a = [] := List.length_eq_zero.mp hak
        have hb0 : b = [] := List.length_eq_zero.mp hbk
        subst ha0
        subst hb0
        rfl
      | succ n =>
        have h1 : n + 1 - (n + 1 - 1) = 1 := by omega
        rw [h1, he, List.dropLast_eq_take, hbk]
    · rintro ⟨hb, hne, he⟩
      have hbk : b.length = k := hlen b hb
      refine ⟨hb, fun h => hne h.symm, ?_⟩
      rw [List.dropLast_eq_take, hbk]
      rw [hak] at he
      cases k with
      | zero =>
        have ha0 : a = [] := List.length_eq_zero.mp hak
        have hb0 : b = [] := List.length_eq_zero.mp hbk
        subst ha0
        subst hb0
        rfl
      | succ n =>
        have h1 : n + 1 - (n + 1 - 1) = 1 := by omega
        rw [h1] at he
        exact he
  · intro hmem
    exact (mem_find_next_kmers.mp (mem_sOf.mp hmem)).2.1 rfl

/-- C7 witness: the theorem applied to the concrete k-mer set
{"AAAA", "AAAT", "AATC"} (k = 4) at node "AAAA". -/
theorem c7_successor_contract_witness :
    ∃ s, dlookup (build_graph exK) (toL "AAAA") = some s ∧
      (∀ b, b ∈ s ↔ b ∈ exK ∧ b ≠ toL "AAAA" ∧
        (toL "AAAA").drop ((toL "AAAA").length - (4 - 1)) = b.take (4 - 1)) ∧
      toL "AAAA" ∉ s :=
  c7_successor_contract exK 4 (by decide) (toL "AAAA") (by decide)

/-! ### Key-set equality is preserved by simplification passes (claim C1,
amended part). -/

instance (g rv : RDict) : Decidable (KeysEq g rv) := by
  unfold KeysEq
  infer_instance

theorem dkeys_merge_transform {d : RDict} (hd : (dkeys d).Nodup)
    (nw word f : Str) (r : Ref) (x : Str) :
    x ∈ dkeys (dpop (dpop (dset d nw r) word) f) ↔
      ((x ∈ dkeys d ∨ x = nw) ∧ x ≠ word ∧ x ≠ f) := by
  have h1 : (dkeys (dset d nw r)).Nodup := nodup_dkeys_dset _ hd
  have h2 : (dkeys (dpop (dset d nw r) word)).Nodup := nodup_dkeys_dpop h1
  rw [mem_dkeys_dpop h2, mem_dkeys_dpop h1, mem_dkeys_dset]
  tauto

theorem walk_keyseq : ∀ (fuel : Nat) (word : Str) (g rv : RDict) (h : Heap)
    (g1 rv1 : RDict) (h1 : Heap),
    (dkeys g).Nodup → (dkeys rv).Nodup → KeysEq g rv →
    walk fuel word g rv h = .ok (g1, rv1, h1) →
    KeysEq g1 rv1 ∧ (dkeys g1).Nodup ∧ (dkeys rv1).Nodup := by
  intro fuel
  induction fuel with
  | zero =>
    intro word g rv h g1 rv1 h1 _ _ _ hok
    cases hok
  | succ fuel ih =>
    intro word g rv h g1 rv1 h1 hg hrv hke hok
    unfold walk at hok
    split at hok
    · injection hok with h3
      injection h3 with hgg h4
      injection h4 with hrr hhh
      rw [← hgg, ← hrr]
      exact ⟨hke, hg, hrv⟩
    · next rw hw =>
        split at hok
        · next f =>
            split at hok
            · cases hok
            · next rf hrf =>
                split at hok
                · split at hok
                  · cases hok
                  · next nw g2 rv2 h2 hm =>
                      obtain ⟨hnw, rF, rW, hf, hrw2, hg2, hrv2⟩ :=
                        walkMerge_ok_shape hm
                      have hg2n : (dkeys g2).Nodup := by
                        rw [hg2]
                        exact nodup_dkeys_dpop (nodup_dkeys_dpop
                          (nodup_dkeys_dset _ hg))
                      have hrv2n : (dkeys rv2).Nodup := by
                        rw [hrv2]
                        exact nodup_dkeys_dpop (nodup_dkeys_dpop
                          (nodup_dkeys_dset _ hrv))
                      have hke2 : KeysEq g2 rv2 := by
                        constructor
                        · intro x hx
                          rw [hg2, dkeys_merge_transform hg] at hx
                          rw [hrv2, dkeys_merge_transform hrv]
                          obtain ⟨hx1, hx2, hx3⟩ := hx
                          refine ⟨?_, hx2, hx3⟩
                          rcases hx1 with hx1 | hx1
                          · exact Or.inl (hke.1 x hx1)
                          · exact Or.inr hx1
                        · intro x hx
                          rw [hrv2, dkeys_merge_transform hrv] at hx
                          rw [hg2, dkeys_merge_transform hg]
                          obtain ⟨hx1, hx2, hx3⟩ := hx
                          refine ⟨?_, hx2, hx3⟩
                          rcases hx1 with hx1 | hx1
                          · exact Or.inl (hke.2 x hx1)
                          · exact Or.inr hx1
                      exact ih nw g2 rv2 h2 g1 rv1 h1 hg2n hrv2n hke2 hok
                · injection hok with h3
                  injection h3 with hgg h4
                  injection h4 with hrr hhh
                  rw [← hgg, ← hrr]
                  exact ⟨hke, hg, hrv⟩
        · injection hok with h3
          injection h3 with hgg h4
          injection h4 with hrr hhh
          rw [← hgg, ← hrr]
          exact ⟨hke, hg, hrv⟩

theorem runPass_keyseq : ∀ (kmers : List Str) (g rv : RDict) (h : Heap)
    (g1 rv1 : RDict) (h1 : Heap),
    (dkeys g).Nodup → (dkeys rv).Nodup → KeysEq g rv →
    runPass kmers g rv h = .ok (g1, rv1, h1) →
    KeysEq g1 rv1 ∧ (dkeys g1).Nodup ∧ (dkeys rv1).Nodup := by
  intro kmers
  induction kmers with
  | nil =>
    intro g rv h g1 rv1 h1 hg hrv hke hok
    injection hok with h3
    injection h3 with hgg h4
    injection h4 with hrr hhh
    rw [← hgg, ← hrr]
    exact ⟨hke, hg, hrv⟩
  | cons kmer rest ih =>
    intro g rv h g1 rv1 h1 hg hrv hke hok
    unfold runPass at hok
    split at hok
    · cases hok
    · cases hok
    · next ga rva ha hwok =>
        obtain ⟨hke2, hg2, hrv2⟩ :=
          walk_keyseq (g.length + 1) kmer g rv h ga rva ha hg hrv hke hwok
        exact ih ga rva ha g1 rv1 h1 hg2 hrv2 hke2 hok

/-- C1 (amended): the forward/reverse symmetry invariant (equal key sets and
`B ∈ graph[A]` iff `A ∈ reverse_graph[B]`) holds immediately after
`build_debruijn` on any k-mer list; the simplification passes, however, only
preserve the key-set-equality half of the invariant (each completed pass
keeps the key sets of the two working graphs equal), not the edge symmetry
itself, which a pass can destroy (see the counterexample). -/
theorem c1_amended :
    (∀ kmers : List Str, SymInv (build_graph kmers) (build_rev kmers)) ∧
    (∀ (kmers : List Str) (g rv : RDict) (h : Heap),
      (dkeys g).Nodup → (dkeys rv).Nodup → KeysEq g rv →
      match runPass kmers g rv h with
      | .ok (g1, rv1, _) => KeysEq g1 rv1
      | _ => True) := by
  refine ⟨build_SymInv, ?_⟩
  intro kmers g rv h hg hrv hke
  cases hres : runPass kmers g rv h with
  | div => trivial
  | err e => trivial
  | ok trip =>
    obtain ⟨g1, rv1, h1⟩ := trip
    exact (runPass_keyseq kmers g rv h g1 rv1 h1 hg hrv hke hres).1

/-- C1 witness: the build half at the concrete set {"AAAA","AAAT","AATC"},
and the pass half run on the loaded graphs of the 2-cycle {"ATAT","TATA"}. -/
theorem c1_amended_witness :
    SymInv (build_graph exK) (build_rev exK) ∧
      (match runPass (dkeys (simplifyLoad (asmOf cycK)).1)
          (simplifyLoad (asmOf cycK)).1 (simplifyLoad (asmOf cycK)).2.1
          (simplifyLoad (asmOf cycK)).2.2 with
       | .ok (g1, rv1, _) => KeysEq g1 rv1
       | _ => True) :=
  ⟨c1_amended.1 exK,
   c1_amended.2 _ _ _ _ (by decide) (by decide) (by decide)⟩
